import Mathlib

/-!
# Verification of the MagiChaum Hearthstone card-lookup engine

A shallow embedding of `src/extensions/hearthstone/hearthstone.py`:
the Levenshtein scorer in `_find_card`, the dataset freshness logic in
`_set_cards`, the record cleaning in `_clean_cards_dict` / `_format_card`,
and theorems settling the specification's claims about them.

Python strings are modelled as `List Char`; Python floats (scores,
modification times) are modelled as exact rationals `ℚ` (the constants
`.75` and `.25` are exactly representable, and the claims are about the
algorithm's arithmetic structure).  A Python expression that can raise an
exception is modelled with `Option` / `Except`: `none` (or `.error`)
marks the raising branch.
-/

namespace HS

/-- Python `str.split(' ')`: split on every single space, keeping empty
pieces between consecutive spaces; `"".split(' ') == ['']`. -/
def splitSp : List Char → List (List Char)
  | [] => [[]]
  | c :: rest =>
    match splitSp rest with
    | [] => if c = ' ' then [[], []] else [[c]]
    | t :: ts => if c = ' ' then [] :: t :: ts else (c :: t) :: ts

/-- Python `str.strip(' ')`: drop leading and trailing spaces. -/
def strip (s : List Char) : List Char :=
  ((s.dropWhile (· = ' ')).reverse.dropWhile (· = ' ')).reverse

/-- Python `str.lower()` (character-wise, as for the ASCII card data). -/
def lowerStr (s : List Char) : List Char := s.map Char.toLower

/-- Python `str.replace(" ", "")`: remove every space. -/
def remSp (s : List Char) : List Char := s.filter (· ≠ ' ')

/-- Helper for `dedupFirst`: drop elements already seen. -/
def dedupAux (seen : List (List Char)) : List (List Char) → List (List Char)
  | [] => []
  | x :: xs => if x ∈ seen then dedupAux seen xs else x :: dedupAux (x :: seen) xs

/-- Keys of a Python `dict` built by inserting the elements of a list in
order: duplicates collapse onto their first occurrence, insertion order
is kept.  This models `search_words` (and the per-token card-word dict)
in `_find_card`. -/
def dedupFirst (l : List (List Char)) : List (List Char) := dedupAux [] l

/-- `mapOpt f l` maps a fallible `f` over `l`: `none` as soon as any
element fails (modelling an exception escaping a Python loop). -/
def mapOpt (f : α → Option β) : List α → Option (List β)
  | [] => some []
  | x :: xs =>
    match f x, mapOpt f xs with
    | some y, some ys => some (y :: ys)
    | _, _ => none

/-- Left-fold sum, as Python's `+=` accumulation starting from `0.0`. -/
def sumQ (l : List ℚ) : ℚ := l.foldl (fun a b => a + b) 0

/-- The classic Levenshtein edit distance (unit-cost insertion, deletion
and substitution), by the textbook recursion on the first characters.
This is the specification-side reference function for claim C6. -/
def lev : List Char → List Char → ℕ
  | [], ys => ys.length
  | x :: xs, [] => xs.length + 1
  | x :: xs, y :: ys =>
    min (min (lev xs (y :: ys) + 1) (lev (x :: xs) ys + 1))
      (lev xs ys + (if x = y then 0 else 1))

theorem lev_nil_left (t : List Char) : lev [] t = t.length := by
  simp [lev]

theorem lev_nil_right (s : List Char) : lev s [] = s.length := by
  cases s <;> simp [lev]

theorem lev_self (s : List Char) : lev s s = 0 := by
  induction s with
  | nil => simp [lev]
  | cons x xs ih => simp [lev, ih]

theorem lev_symm (s t : List Char) : lev s t = lev t s := by
  induction s generalizing t with
  | nil => rw [lev_nil_left, lev_nil_right]
  | cons x xs ihx =>
    induction t with
    | nil => rw [lev_nil_left, lev_nil_right]
    | cons y ys ihy =>
      simp only [lev]
      rw [ihx (y :: ys), ihx ys, ihy]
      have hxy : (if x = y then 0 else 1) = (if y = x then 0 else 1) := by
        by_cases h : x = y
        · simp [h]
        · rw [if_neg h, if_neg (Ne.symm h)]
      rw [hxy]
      generalize (if y = x then 0 else 1) = c
      apply le_antisymm <;> (simp only [le_min_iff]; omega)

set_option maxHeartbeats 1000000 in
/-- The "snoc" (last-character) recurrence for `lev`: appending one
character to each argument satisfies the same three-way minimum as the
cons recurrence.  This is what lets the row-by-row dynamic program of
`calc_levenshtein_distance` (which extends prefixes on the right) compute
`lev` (which recurses on the left). -/
theorem lev_snoc (u v : List Char) (x y : Char) :
    lev (u ++ [x]) (v ++ [y]) =
      min (min (lev u (v ++ [y]) + 1) (lev (u ++ [x]) v + 1))
        (lev u v + (if x = y then 0 else 1)) := by
  induction u generalizing v with
  | nil =>
    induction v with
    | nil => simp [lev]
    | cons b v' ihv =>
      simp only [List.nil_append] at ihv ⊢
      simp only [List.cons_append]
      simp only [lev]
      rw [ihv]
      simp only [lev_nil_left, List.length_append, List.length_cons,
        List.length_nil]
      generalize (if x = b then 0 else 1) = cxb
      generalize (if x = y then 0 else 1) = cxy
      generalize lev [x] v' = B
      apply le_antisymm <;> (simp only [le_min_iff]; omega)
  | cons a u' ihu =>
    induction v with
    | nil =>
      have hA := ihu []
      simp only [List.nil_append] at hA ⊢
      simp only [List.cons_append]
      simp only [lev]
      rw [hA]
      simp only [lev_nil_right, lev_nil_left, List.length_append,
        List.length_cons, List.length_nil]
      generalize (if a = y then 0 else 1) = cay
      generalize (if x = y then 0 else 1) = cxy
      generalize lev u' [y] = B
      apply le_antisymm <;> (simp only [le_min_iff]; omega)
    | cons b v' ihv =>
      have hA := ihu (b :: v')
      have hB := ihv
      have hC := ihu v'
      simp only [List.cons_append] at hA hB hC ⊢
      simp only [lev]
      rw [hA, hB, hC]
      clear hA hB hC ihu ihv
      generalize (if a = b then 0 else 1) = cab
      generalize (if x = y then 0 else 1) = cxy
      generalize lev u' (b :: (v' ++ [y])) = A1
      generalize lev (u' ++ [x]) (b :: v') = A2
      generalize lev u' (b :: v') = A3
      generalize lev (a :: u') (v' ++ [y]) = A4
      generalize lev (a :: (u' ++ [x])) v' = A5
      generalize lev (a :: u') v' = A6
      generalize lev u' (v' ++ [y]) = A7
      generalize lev (u' ++ [x]) v' = A8
      generalize lev u' v' = A9
      apply le_antisymm <;> (simp only [le_min_iff]; omega)

/-! ## The source's dynamic program (`calc_levenshtein_distance`)

```python
def calc_levenshtein_distance(s1, s2):
    if len(s1) < len(s2):
        return calc_levenshtein_distance(s2, s1)
    if len(s2) == 0:
        return len(s1)
    previous_row = range(len(s2) + 1)
    for i, c1 in enumerate(s1):
        current_row = [i + 1]
        for j, c2 in enumerate(s2):
            insertions = previous_row[j + 1] + 1
            deletions = current_row[j] + 1
            substitutions = previous_row[j] + (c1 != c2)
            current_row.append(min(insertions, deletions, substitutions))
        previous_row = current_row
    return previous_row[-1]
```
-/

/-- The inner `for j, c2 in enumerate(s2)` loop: walks `s2` in lockstep
with the previous row (`p0` is `previous_row[j]`, `p1` is
`previous_row[j+1]`), `last` is the last entry appended to
`current_row`; returns the appended entries (`current_row[1:]`).
`(c1 != c2)` is the 0/1 substitution cost. -/
def lev_row (c1 : Char) : List Char → List ℕ → ℕ → List ℕ
  | c2 :: s2, p0 :: p1 :: prest, last =>
    min (min (p1 + 1) (last + 1)) (p0 + (if c1 = c2 then 0 else 1)) ::
      lev_row c1 s2 (p1 :: prest)
        (min (min (p1 + 1) (last + 1)) (p0 + (if c1 = c2 then 0 else 1)))
  | _, _, _ => []

/-- The outer `for i, c1 in enumerate(s1)` loop: `prev` is
`previous_row`, `i` counts the characters of `s1` already consumed;
each step builds `current_row = [i + 1] ++ inner-loop entries`. -/
def lev_loop (s2 : List Char) : List Char → List ℕ → ℕ → List ℕ
  | [], prev, _ => prev
  | c1 :: s1, prev, i =>
    lev_loop s2 s1 ((i + 1) :: lev_row c1 s2 prev (i + 1)) (i + 1)

/-- The body of `calc_levenshtein_distance` after the swap check:
return `len(s1)` for an empty `s2`, otherwise run the row dynamic
program seeded with `range(len(s2) + 1)` and return the last entry of
the final row (`previous_row[-1]`). -/
def calc_levenshtein_core (s1 s2 : List Char) : ℕ :=
  if s2.length = 0 then s1.length
  else (lev_loop s2 s1 (List.range (s2.length + 1)) 0).getLastD 0

/-- `calc_levenshtein_distance` from `_find_card`.  The source starts
with `if len(s1) < len(s2): return calc_levenshtein_distance(s2, s1)`;
that recursive call swaps the arguments exactly once (after it,
`len(s1) > len(s2)` holds, so the swap branch is not taken again), so it
is inlined here as an argument swap, keeping the definition
kernel-computable. -/
def calc_levenshtein_distance (s1 s2 : List Char) : ℕ :=
  if s1.length < s2.length then calc_levenshtein_core s2 s1
  else calc_levenshtein_core s1 s2

/-- Correctness of the inner loop: if the previous row holds `f` on the
indices `k, …, k + |s2|` and `g` satisfies the Levenshtein row recurrence
against `f`, the loop produces `g` on `k + 1, …, k + |s2|`. -/
theorem lev_row_spec (c1 : Char) (s2 : List Char) : ∀ (k : ℕ) (f g : ℕ → ℕ),
    (∀ j, j < s2.length →
      g (k + j + 1) =
        min (min (f (k + j + 1) + 1) (g (k + j) + 1))
          (f (k + j) + (if c1 = s2.getD j ' ' then 0 else 1))) →
    lev_row c1 s2 ((List.range' k (s2.length + 1)).map f) (g k) =
      (List.range' (k + 1) s2.length).map g := by
  induction s2 with
  | nil => intro k f g _; rfl
  | cons c2 s2' ih =>
    intro k f g h
    have h0 := h 0 (by simp)
    simp only [Nat.add_zero, List.getD_cons_zero] at h0
    have hrec := ih (k + 1) f g (by
      intro j hj
      have h' := h (j + 1) (by simp only [List.length_cons]; omega)
      rw [List.getD_cons_succ] at h'
      have e1 : k + (j + 1) + 1 = k + 1 + j + 1 := by omega
      have e2 : k + (j + 1) = k + 1 + j := by omega
      rw [e1, e2] at h'
      exact h')
    have hx : (List.range' (k + 1) (s2'.length + 1)).map f =
        f (k + 1) :: (List.range' (k + 1 + 1) s2'.length).map f := by
      rw [List.range'_succ, List.map_cons]
    rw [hx] at hrec
    simp only [List.length_cons]
    rw [List.range'_succ, List.map_cons, hx]
    simp only [lev_row]
    rw [← h0]
    rw [List.range'_succ, List.map_cons, hrec]

/-- Correctness of the outer loop: starting from the row of distances of
`a.take i` against all prefixes of `b`, consuming the remaining
characters `a.drop i` yields the row of distances of `a` itself. -/
theorem lev_loop_spec (b a : List Char) : ∀ (s1 : List Char) (i : ℕ),
    a.drop i = s1 →
    lev_loop b s1
      ((List.range' 0 (b.length + 1)).map (fun j => lev (a.take i) (b.take j))) i =
      (List.range' 0 (b.length + 1)).map (fun j => lev a (b.take j)) := by
  intro s1
  induction s1 with
  | nil =>
    intro i hdrop
    have hlen : a.length ≤ i := by
      by_contra hlt
      have := List.drop_eq_nil_iff.mp hdrop
      omega
    have htake : a.take i = a := List.take_of_length_le hlen
    rw [htake]
    rfl
  | cons c1 s1' ih =>
    intro i hdrop
    have hi : i < a.length := by
      by_contra hge
      rw [List.drop_eq_nil_of_le (by omega)] at hdrop
      exact List.noConfusion hdrop
    have hc1 : a[i]? = some c1 := by
      have h1 := List.getElem?_drop a i 0
      rw [hdrop] at h1
      simpa using h1.symm
    have htake1 : a.take (i + 1) = a.take i ++ [c1] := by
      rw [List.take_succ, hc1]
      rfl
    have hrow := lev_row_spec c1 b 0
      (fun j => lev (a.take i) (b.take j))
      (fun j => lev (a.take (i + 1)) (b.take j))
      (by
        intro j hj
        simp only [Nat.zero_add]
        have hbj : b[j]? = some (b.getD j ' ') := by
          rw [List.getElem?_eq_getElem hj, List.getD_eq_getElem b ' ' hj]
        have htbj : b.take (j + 1) = b.take j ++ [b.getD j ' '] := by
          rw [List.take_succ, hbj]
          rfl
        rw [htake1, htbj]
        exact lev_snoc (a.take i) (b.take j) c1 (b.getD j ' '))
    have hg0 : lev (a.take (i + 1)) (b.take 0) = i + 1 := by
      rw [List.take_zero, lev_nil_right, List.length_take]
      omega
    simp only [Nat.zero_add] at hrow
    rw [hg0] at hrow
    simp only [lev_loop]
    have hR : (List.range' 0 (b.length + 1)).map (fun j => lev (a.take (i + 1)) (b.take j)) =
        lev (a.take (i + 1)) (b.take 0) ::
          (List.range' 1 b.length).map (fun j => lev (a.take (i + 1)) (b.take j)) := by
      rw [List.range'_succ, List.map_cons]
    have hnew : (List.range' 0 (b.length + 1)).map (fun j => lev (a.take (i + 1)) (b.take j)) =
        (i + 1) :: lev_row c1 b
          ((List.range' 0 (b.length + 1)).map (fun j => lev (a.take i) (b.take j))) (i + 1) := by
      rw [hR, hg0, hrow]
    rw [← hnew]
    exact ih (i + 1) (by rw [← List.drop_drop, hdrop]; rfl)

/-- The last entry of a mapped `range'`. -/
theorem getLastD_map_range' (f : ℕ → ℕ) : ∀ (n s : ℕ) (d : ℕ),
    ((List.range' s (n + 1)).map f).getLastD d = f (s + n) := by
  intro n
  induction n with
  | zero => intro s d; simp [List.range'_succ]
  | succ n ih =>
    intro s d
    rw [List.range'_succ, List.map_cons, List.getLastD_cons]
    rw [ih (s + 1) (f s)]
    congr 1
    omega

/-- The dynamic program (without the swap) computes `lev`. -/
theorem lev_loop_full (a b : List Char) :
    (lev_loop b a (List.range (b.length + 1)) 0).getLastD 0 = lev a b := by
  have hinit : List.range (b.length + 1) =
      (List.range' 0 (b.length + 1)).map (fun j => lev (a.take 0) (b.take j)) := by
    rw [List.range_eq_range']
    have : ∀ j ∈ List.range' 0 (b.length + 1), j = lev (a.take 0) (b.take j) := by
      intro j hj
      have hj' : j < b.length + 1 := by
        have := List.mem_range'_1.mp hj
        omega
      rw [List.take_zero, lev_nil_left, List.length_take]
      omega
    calc List.range' 0 (b.length + 1)
        = (List.range' 0 (b.length + 1)).map id := by rw [List.map_id]
      _ = _ := List.map_congr_left (by intro j hj; rw [id_eq]; exact this j hj)
  rw [hinit, lev_loop_spec b a a 0 (by rfl), getLastD_map_range']
  rw [Nat.zero_add, List.take_length]

/-- The no-swap body computes `lev`. -/
theorem calc_core_eq_lev (a b : List Char) :
    calc_levenshtein_core a b = lev a b := by
  rw [calc_levenshtein_core]
  by_cases hb : b.length = 0
  · rw [if_pos hb]
    have : b = [] := List.length_eq_zero.mp hb
    rw [this, lev_nil_right]
  · rw [if_neg hb]
    exact lev_loop_full a b

/-- The source's Levenshtein routine agrees with the classic edit
distance on all inputs. -/
theorem calc_eq_lev (a b : List Char) :
    calc_levenshtein_distance a b = lev a b := by
  rw [calc_levenshtein_distance]
  by_cases h : a.length < b.length
  · rw [if_pos h, calc_core_eq_lev b a, lev_symm]
  · rw [if_neg h, calc_core_eq_lev a b]

/-! ## Word similarity and best-match selection -/

/-- The per-word similarity from `_find_card`:
`1 - distance / max(len(search_word), len(card_word))`.
`none` models the `ZeroDivisionError` raised when both tokens are empty
(`max(len, len) == 0`); the source has no guard for that case. -/
def similarity (sw cw : List Char) : Option ℚ :=
  if max sw.length cw.length = 0 then none
  else some (1 - (calc_levenshtein_distance sw cw : ℚ) / (max sw.length cw.length : ℚ))

/-- One step of the strict-improvement maximum scan
(`if candidate['match'] > max_value['match']`): keep `acc` on ties. -/
def pick {α : Type} (acc p : α × ℚ) : α × ℚ := if acc.2 < p.2 then p else acc

/-- The `max_value_key` selection in `_find_card`: start from the first
dict entry, then scan every entry, replacing the current best only on a
strictly greater match.  (The scan includes the first entry itself; that
first comparison is a no-op since the comparison is strict.) -/
def bestMatch {α : Type} : List (α × ℚ) → Option (α × ℚ)
  | [] => none
  | x :: xs => some (List.foldl pick x (x :: xs))

/-- Stable descending insertion: walk past strictly larger keys, so an
element is placed before every equal-keyed element already present. -/
def insertDesc {α : Type} (p : α × ℚ) : List (α × ℚ) → List (α × ℚ)
  | [] => [p]
  | q :: qs => if p.2 < q.2 then q :: insertDesc p qs else p :: q :: qs

/-- A stable sort by score descending, modelling Python's stable
`results.sort(key=lambda r: r[1], reverse=True)` (equal scores keep
their original relative order in both). -/
def sortDesc {α : Type} : List (α × ℚ) → List (α × ℚ)
  | [] => []
  | x :: xs => insertDesc x (sortDesc xs)

theorem pick_cases {α : Type} (acc p : α × ℚ) :
    (acc.2 < p.2 ∧ pick acc p = p) ∨ (p.2 ≤ acc.2 ∧ pick acc p = acc) := by
  by_cases h : acc.2 < p.2
  · left; exact ⟨h, by simp [pick, h]⟩
  · right; exact ⟨le_of_not_lt h, by simp [pick, h]⟩

theorem pick_self {α : Type} (x : α × ℚ) : pick x x = x := by
  simp [pick]

theorem pick_assoc {α : Type} (x p z : α × ℚ) :
    pick (pick x p) z = pick x (pick p z) := by
  simp only [pick]
  split_ifs <;> first | rfl | (exfalso; linarith)

/-- Helper: the strict-improvement scan, folded from the right. -/
def fmr {α : Type} : α × ℚ → List (α × ℚ) → α × ℚ
  | x, [] => x
  | x, p :: l => pick x (fmr p l)

theorem fmr_pick {α : Type} : ∀ (l : List (α × ℚ)) (x p : α × ℚ),
    fmr (pick x p) l = pick x (fmr p l) := by
  intro l
  induction l with
  | nil => intro x p; rfl
  | cons q l' _ => intro x p; simp only [fmr]; rw [pick_assoc]

theorem foldl_pick_eq_fmr {α : Type} : ∀ (l : List (α × ℚ)) (x : α × ℚ),
    List.foldl pick x l = fmr x l := by
  intro l
  induction l with
  | nil => intro x; rfl
  | cons p l' ih =>
    intro x
    rw [List.foldl_cons, ih (pick x p), fmr_pick]
    rfl

/-- What the strict-improvement scan returns: either the seed (when
nothing beats it), or an element of the list that strictly beats the
seed, strictly beats everything before it, and is not beaten by anything
after it — i.e. the first maximum. -/
theorem foldl_pick_spec {α : Type} :
    ∀ (l : List (α × ℚ)) (acc : α × ℚ),
    (List.foldl pick acc l = acc ∧ ∀ p ∈ l, p.2 ≤ acc.2) ∨
    (∃ pre post, l = pre ++ List.foldl pick acc l :: post ∧
      acc.2 < (List.foldl pick acc l).2 ∧
      (∀ p ∈ pre, p.2 < (List.foldl pick acc l).2) ∧
      (∀ p ∈ post, p.2 ≤ (List.foldl pick acc l).2)) := by
  intro l
  induction l with
  | nil => intro acc; left; exact ⟨rfl, by simp⟩
  | cons p l' ih =>
    intro acc
    rw [List.foldl_cons]
    rcases pick_cases acc p with ⟨hlt, hp⟩ | ⟨hle, hp⟩
    · -- pick acc p = p
      rw [hp]
      rcases ih p with ⟨heq, hbound⟩ | ⟨pre, post, hsplit, hlt2, hpre, hpost⟩
      · right
        refine ⟨[], l', ?_, ?_, ?_, ?_⟩
        · rw [heq]; rfl
        · rw [heq]; exact hlt
        · intro q hq; cases hq
        · rw [heq]; exact hbound
      · right
        refine ⟨p :: pre, post, ?_, ?_, ?_, ?_⟩
        · rw [List.cons_append, ← hsplit]
        · exact lt_trans hlt hlt2
        · intro q hq
          rcases List.mem_cons.mp hq with h1 | h2
          · rw [h1]; exact hlt2
          · exact hpre q h2
        · exact hpost
    · -- pick acc p = acc
      rw [hp]
      rcases ih acc with ⟨heq, hbound⟩ | ⟨pre, post, hsplit, hlt2, hpre, hpost⟩
      · left
        refine ⟨heq, ?_⟩
        intro q hq
        rcases List.mem_cons.mp hq with h1 | h2
        · rw [h1]; exact hle
        · exact hbound q h2
      · right
        refine ⟨p :: pre, post, ?_, hlt2, ?_, hpost⟩
        · rw [List.cons_append, ← hsplit]
        · intro q hq
          rcases List.mem_cons.mp hq with h1 | h2
          · rw [h1]; exact lt_of_le_of_lt hle hlt2
          · exact hpre q h2

theorem insertDesc_ne_nil {α : Type} (p : α × ℚ) (l : List (α × ℚ)) :
    insertDesc p l ≠ [] := by
  cases l with
  | nil => simp [insertDesc]
  | cons q qs =>
    simp only [insertDesc]
    split_ifs <;> simp

theorem sortDesc_nil_iff {α : Type} (l : List (α × ℚ)) :
    sortDesc l = [] ↔ l = [] := by
  cases l with
  | nil => simp [sortDesc]
  | cons x xs =>
    simp only [sortDesc]
    constructor
    · intro h; exact absurd h (insertDesc_ne_nil _ _)
    · intro h; exact List.noConfusion h

theorem mem_insertDesc {α : Type} (p : α × ℚ) :
    ∀ (l : List (α × ℚ)) (x : α × ℚ), x ∈ insertDesc p l → x = p ∨ x ∈ l := by
  intro l
  induction l with
  | nil => intro x hx; simp only [insertDesc] at hx; left; simpa using hx
  | cons q qs ih =>
    intro x hx
    simp only [insertDesc] at hx
    split_ifs at hx with h
    · rcases List.mem_cons.mp hx with h1 | h2
      · right; exact List.mem_cons.mpr (Or.inl h1)
      · rcases ih x h2 with h3 | h4
        · left; exact h3
        · right; exact List.mem_cons.mpr (Or.inr h4)
    · rcases List.mem_cons.mp hx with h1 | h2
      · left; exact h1
      · right; exact h2

theorem mem_sortDesc {α : Type} :
    ∀ (l : List (α × ℚ)) (x : α × ℚ), x ∈ sortDesc l → x ∈ l := by
  intro l
  induction l with
  | nil => intro x hx; exact absurd hx (List.not_mem_nil x)
  | cons p ps ih =>
    intro x hx
    rcases mem_insertDesc p (sortDesc ps) x hx with h1 | h2
    · rw [h1]; exact List.mem_cons_self p ps
    · exact List.mem_cons.mpr (Or.inr (ih x h2))

/-- The head of the stable descending sort is exactly the value of the
strict-improvement scan (`bestMatch`): the first element of maximal key. -/
theorem sortDesc_head {α : Type} :
    ∀ l : List (α × ℚ), (sortDesc l).head? = bestMatch l := by
  intro l
  induction l with
  | nil => rfl
  | cons x xs ih =>
    show (insertDesc x (sortDesc xs)).head? = _
    cases hxs : sortDesc xs with
    | nil =>
      have : xs = [] := (sortDesc_nil_iff xs).mp hxs
      subst this
      simp [insertDesc, bestMatch, List.foldl_cons, pick_self]
    | cons q qs =>
      have hhead : (insertDesc x (q :: qs)).head? = some (pick x q) := by
        simp only [insertDesc, pick]
        split_ifs <;> rfl
      rw [hhead]
      cases xs with
      | nil => rw [sortDesc] at hxs; exact absurd hxs (by simp)
      | cons y ys =>
        have h0 : some q = bestMatch (y :: ys) := by rw [← ih, hxs]; rfl
        have h1 : bestMatch (y :: ys) = some (List.foldl pick y (y :: ys)) := rfl
        rw [h1] at h0
        have hq' : q = List.foldl pick y (y :: ys) := Option.some.inj h0
        show _ = some (List.foldl pick x (x :: y :: ys))
        rw [List.foldl_cons, pick_self, List.foldl_cons,
          foldl_pick_eq_fmr ys (pick x y), fmr_pick]
        rw [hq', List.foldl_cons, pick_self, foldl_pick_eq_fmr]

theorem bool_neg {b : Bool} (h : b = false) : ¬ b = true := by simp [h]

/-- `find?` returns the marked element when everything before it fails
the predicate and it satisfies it. -/
theorem find?_first {α : Type} (P : α → Bool) :
    ∀ (pre : List α) (r : α) (post : List α),
    (∀ p ∈ pre, P p = false) → P r = true →
    (pre ++ r :: post).find? P = some r := by
  intro pre
  induction pre with
  | nil => intro r post _ hr; simpa using List.find?_cons_of_pos post hr
  | cons a pre' ih =>
    intro r post h hr
    rw [List.cons_append,
      List.find?_cons_of_neg _ (bool_neg (h a (List.mem_cons_self a pre')))]
    exact ih r post (fun p hp => h p (List.mem_cons.mpr (Or.inr hp))) hr

theorem find?_ext {α : Type} (P Q : α → Bool) :
    ∀ l : List α, (∀ a ∈ l, P a = Q a) → l.find? P = l.find? Q := by
  intro l
  induction l with
  | nil => intro _; rfl
  | cons a l' ih =>
    intro h
    have ha := h a (List.mem_cons_self a l')
    cases hPa : P a with
    | true =>
      rw [List.find?_cons_of_pos _ hPa, List.find?_cons_of_pos _ (ha ▸ hPa)]
    | false =>
      rw [List.find?_cons_of_neg _ (bool_neg hPa),
        List.find?_cons_of_neg _ (bool_neg (ha ▸ hPa))]
      exact ih fun p hp => h p (List.mem_cons.mpr (Or.inr hp))

/-- `bestMatch` is the first element whose key is maximal in the list. -/
theorem bestMatch_eq_find? {α : Type} (l : List (α × ℚ)) :
    bestMatch l = l.find? (fun p => decide (∀ q ∈ l, q.2 ≤ p.2)) := by
  cases l with
  | nil => rfl
  | cons x xs =>
    set P : α × ℚ → Bool := fun p => decide (∀ q ∈ x :: xs, q.2 ≤ p.2) with hP
    show some (List.foldl pick x (x :: xs)) = List.find? P (x :: xs)
    rcases foldl_pick_spec (x :: xs) x with ⟨heq, hbound⟩ | ⟨pre, post, hsplit, _, hpre, hpost⟩
    · rw [heq]
      have hx : P x = true := by
        rw [hP]
        simp only [decide_eq_true_eq]
        exact hbound
      exact (List.find?_cons_of_pos xs hx).symm
    · set r := List.foldl pick x (x :: xs) with hr
      have hmax : ∀ q ∈ x :: xs, q.2 ≤ r.2 := by
        intro q hq
        rw [hsplit] at hq
        rcases List.mem_append.mp hq with h1 | h2
        · exact le_of_lt (hpre q h1)
        · rcases List.mem_cons.mp h2 with h3 | h4
          · rw [h3]
          · exact hpost q h4
      have hsat : P r = true := by
        rw [hP]
        simp only [decide_eq_true_eq]
        exact hmax
      have hfails : ∀ p ∈ pre, P p = false := by
        intro p hp
        rw [hP]
        simp only [decide_eq_false_iff_not]
        push_neg
        refine ⟨r, ?_, hpre p hp⟩
        rw [hsplit]
        exact List.mem_append.mpr (Or.inr (List.mem_cons_self r post))
      rw [hsplit]
      exact (find?_first P pre r post hfails hsat).symm

/-- Membership in the deduplicated key list. -/
theorem mem_dedupAux : ∀ (l seen : List (List Char)) (x : List Char),
    x ∈ dedupAux seen l ↔ x ∈ l ∧ x ∉ seen := by
  intro l
  induction l with
  | nil => intro seen x; simp [dedupAux]
  | cons y ys ih =>
    intro seen x
    by_cases hy : y ∈ seen
    · rw [dedupAux, if_pos hy, ih]
      constructor
      · rintro ⟨h1, h2⟩; exact ⟨List.mem_cons.mpr (Or.inr h1), h2⟩
      · rintro ⟨h1, h2⟩
        rcases List.mem_cons.mp h1 with h3 | h4
        · exact absurd (h3 ▸ hy) h2
        · exact ⟨h4, h2⟩
    · rw [dedupAux, if_neg hy]
      constructor
      · intro h
        rcases List.mem_cons.mp h with h1 | h2
        · exact ⟨List.mem_cons.mpr (Or.inl h1), h1 ▸ hy⟩
        · rcases (ih (y :: seen) x).mp h2 with ⟨h3, h4⟩
          exact ⟨List.mem_cons.mpr (Or.inr h3),
            fun hx => h4 (List.mem_cons.mpr (Or.inr hx))⟩
      · rintro ⟨h1, h2⟩
        rcases List.mem_cons.mp h1 with h3 | h4
        · exact List.mem_cons.mpr (Or.inl h3)
        · by_cases hxy : x = y
          · exact List.mem_cons.mpr (Or.inl hxy)
          · exact List.mem_cons.mpr (Or.inr ((ih (y :: seen) x).mpr
              ⟨h4, fun hx => (List.mem_cons.mp hx).elim hxy h2⟩))

theorem mem_dedupFirst (l : List (List Char)) (x : List Char) :
    x ∈ dedupFirst l ↔ x ∈ l := by
  rw [dedupFirst, mem_dedupAux]
  simp

/-- Deduplicating the keys does not change the first element found by a
(value-determined) predicate. -/
theorem find?_dedupAux (Q : List Char → Bool) :
    ∀ (l seen : List (List Char)), (∀ x ∈ seen, Q x = false) →
    (dedupAux seen l).find? Q = l.find? Q := by
  intro l
  induction l with
  | nil => intro seen _; rfl
  | cons y ys ih =>
    intro seen h
    by_cases hy : y ∈ seen
    · rw [dedupAux, if_pos hy, ih seen h,
        List.find?_cons_of_neg _ (bool_neg (h y hy))]
    · rw [dedupAux, if_neg hy]
      cases hQ : Q y with
      | true => rw [List.find?_cons_of_pos _ hQ, List.find?_cons_of_pos _ hQ]
      | false =>
        rw [List.find?_cons_of_neg _ (bool_neg hQ),
          List.find?_cons_of_neg _ (bool_neg hQ)]
        exact ih (y :: seen) (by
          intro x hx
          rcases List.mem_cons.mp hx with h1 | h2
          · rw [h1]; exact hQ
          · exact h x h2)

theorem find?_dedupFirst (Q : List Char → Bool) (l : List (List Char)) :
    (dedupFirst l).find? Q = l.find? Q :=
  find?_dedupAux Q l [] (by intro x hx; cases hx)

/-! ## `mapOpt` lemmas -/

theorem mapOpt_eq_none_iff (f : α → Option β) :
    ∀ l : List α, mapOpt f l = none ↔ ∃ a ∈ l, f a = none := by
  intro l
  induction l with
  | nil => simp [mapOpt]
  | cons x xs ih =>
    cases hfx : f x with
    | none =>
      simp only [mapOpt, hfx]
      exact ⟨fun _ => ⟨x, List.mem_cons_self x xs, hfx⟩, fun _ => trivial⟩
    | some y =>
      cases hrest : mapOpt f xs with
      | none =>
        simp only [mapOpt, hfx, hrest]
        constructor
        · intro _
          rcases ih.mp hrest with ⟨a, ha, hfa⟩
          exact ⟨a, List.mem_cons.mpr (Or.inr ha), hfa⟩
        · intro _; trivial
      | some ys =>
        simp only [mapOpt, hfx, hrest]
        constructor
        · intro h; exact absurd h (by simp)
        · rintro ⟨a, ha, hfa⟩
          exfalso
          rcases List.mem_cons.mp ha with h1 | h2
          · rw [h1, hfx] at hfa
            exact Option.noConfusion hfa
          · have h3 := ih.mpr ⟨a, h2, hfa⟩
            rw [hrest] at h3
            exact Option.noConfusion h3

theorem mapOpt_eq_some_of_forall (f : α → Option β) (g : α → β) :
    ∀ l : List α, (∀ a ∈ l, f a = some (g a)) → mapOpt f l = some (l.map g) := by
  intro l
  induction l with
  | nil => intro _; rfl
  | cons x xs ih =>
    intro h
    rw [mapOpt, h x (List.mem_cons_self x xs),
      ih (fun a ha => h a (List.mem_cons.mpr (Or.inr ha))), List.map_cons]

theorem mapOpt_isSome (f : α → Option β) :
    ∀ (l : List α) (r : List β), mapOpt f l = some r → ∀ a ∈ l, (f a).isSome := by
  intro l
  induction l with
  | nil => intro r _ a ha; cases ha
  | cons x xs ih =>
    intro r h a ha
    rw [mapOpt] at h
    cases hfx : f x with
    | none => rw [hfx] at h; exact absurd h (by simp)
    | some y =>
      rw [hfx] at h
      cases hrest : mapOpt f xs with
      | none => rw [hrest] at h; exact absurd h (by simp)
      | some ys =>
        rcases List.mem_cons.mp ha with h1 | h2
        · rw [h1, hfx]; rfl
        · exact ih ys hrest a h2

theorem mapOpt_eq_map (f : α → Option β) (g : α → β) (l : List α) (r : List β)
    (hr : mapOpt f l = some r) (hg : ∀ a ∈ l, f a = some (g a)) : r = l.map g := by
  have := mapOpt_eq_some_of_forall f g l hg
  rw [hr] at this
  exact Option.some.inj this

theorem mapOpt_mem (f : α → Option β) :
    ∀ (l : List α) (r : List β) (b : β), mapOpt f l = some r → b ∈ r →
    ∃ a ∈ l, f a = some b := by
  intro l
  induction l with
  | nil =>
    intro r b h hb
    rw [mapOpt] at h
    rw [← Option.some.inj h] at hb
    cases hb
  | cons x xs ih =>
    intro r b h hb
    rw [mapOpt] at h
    cases hfx : f x with
    | none => rw [hfx] at h; exact absurd h (by simp)
    | some y =>
      rw [hfx] at h
      cases hrest : mapOpt f xs with
      | none => rw [hrest] at h; exact absurd h (by simp)
      | some ys =>
        rw [hrest] at h
        rw [← Option.some.inj h] at hb
        rcases List.mem_cons.mp hb with h1 | h2
        · exact ⟨x, List.mem_cons_self x xs, h1 ▸ hfx⟩
        · rcases ih ys b hrest h2 with ⟨a, ha, hfa⟩
          exact ⟨a, List.mem_cons.mpr (Or.inr ha), hfa⟩

/-! ## Query scoring: the body of `_find_card` -/

/-- One query token's contribution:
`percent_string_match * match * .75 + percent_test_string_match * match * .25`,
with `percent_string_match = len(search_word)/len(query sans spaces)` and
`percent_test_string_match = len(max_value_key)/len(name sans spaces)`.
`.75` and `.25` are the exact binary floats `3/4` and `1/4`. -/
def contribFormula (qlen nlen swlen cwlen : ℕ) (m : ℚ) : ℚ :=
  (swlen : ℚ) / (qlen : ℚ) * m * (3/4) + (cwlen : ℚ) / (nlen : ℚ) * m * (1/4)

/-- The `percent_match += ...` accumulation over per-token data
`(len(search_word), len(max_value_key), match)`, starting from `0.0`. -/
def sumContribs (qlen nlen : ℕ) (parts : List (ℕ × ℕ × ℚ)) : ℚ :=
  parts.foldl (fun acc p => acc + contribFormula qlen nlen p.1 p.2.1 p.2.2) 0

/-- Processing of one `search_word`: build the per-card-word match dict
(duplicate card words collapse; `similarity` may raise), select
`max_value_key` by strict-improvement scan, then form the data for the
contribution (the two divisions raise `ZeroDivisionError` when the name
resp. the query contain no non-space characters — guarded here by `none`
in the same order as the source computes them). -/
def tokenPart (query name sw : List Char) : Option (ℕ × ℕ × ℚ) :=
  match mapOpt (fun cw => (similarity sw cw).map (fun m => (cw, m)))
      (dedupFirst (splitSp name)) with
  | none => none
  | some ms =>
    match bestMatch ms with
    | none => none
    | some best =>
      if (remSp name).length = 0 then none
      else if (remSp query).length = 0 then none
      else some (sw.length, best.1.length, best.2)

/-- `percent_match` of a (lowercased) query against a (lowercased) card
name: iterate over the distinct query tokens (the `search_words` dict)
and sum the contributions.  `none` models any exception raised while
scoring this card. -/
def score (query name : List Char) : Option ℚ :=
  (mapOpt (tokenPart query name) (dedupFirst (splitSp query))).map
    (sumContribs (remSp query).length (remSp name).length)

/-! ## Cards and `_find_card` -/

/-- A card record.  Only the fields the verified code paths read are
modelled; `collectible` records the *presence* of the `collectible` key
(`'collectible' in card`), `text`/`flavor`/`playerClass` use `Option`
for key presence. -/
structure Card where
  name : List Char
  type : String
  set : String
  text : Option (List Char)
  flavor : Option (List Char)
  playerClass : Option (List Char)
  collectible : Bool
  deriving DecidableEq

/-- The scoring loop over `self.cards`: each card is paired with its
`percent_match` against the stripped, lowercased query.  `none` models an
exception escaping the loop. -/
def scoredList (cards : List Card) (q : List Char) : Option (List (Card × ℚ)) :=
  mapOpt (fun card => (score q (lowerStr card.name)).map (fun s => (card, s))) cards

/-- `_find_card(query, min_match)`, with the card collection threaded
explicitly as state (the method only reads `self.cards`; no statement in
its body assigns to `self.cards` or to any card).  Result component:
`none` = an exception was raised; `some none` = Python returned `None`
(empty query, or no result scored at least `min_match`); `some (some c)`
= the best match `c` (`results.sort(key=..., reverse=True); results[0][0]`,
a stable descending sort, modelled by `sortDesc`). -/
def find_card_run (cards : List Card) (query : List Char) (min_match : ℚ) :
    List Card × Option (Option Card) :=
  let q := lowerStr (strip query)
  if q.length < 1 then (cards, some none)
  else
    match scoredList cards q with
    | none => (cards, none)
    | some scored =>
      let results := scored.filter (fun r => min_match ≤ r.2)
      if results.isEmpty then (cards, some none)
      else (cards, some ((sortDesc results).head?.map Prod.fst))

/-- The result of `_find_card` (second component of the run). -/
def find_card (cards : List Card) (query : List Char) (min_match : ℚ) :
    Option (Option Card) :=
  (find_card_run cards query min_match).2

/-! ## `_format_card` -/

/-- Python `text.find('$')`: index of the first `'$'`, `None` for the
`-1` (absent) case. -/
def findDollar : List Char → Option ℕ
  | [] => none
  | c :: rest => if c = '$' then some 0 else (findDollar rest).map (· + 1)

theorem findDollar_spec : ∀ (s : List Char) (pos : ℕ), findDollar s = some pos →
    pos < s.length ∧ s.getD pos ' ' = '$' ∧ '$' ∉ s.take pos := by
  intro s
  induction s with
  | nil => intro pos h; exact Option.noConfusion h
  | cons c rest ih =>
    intro pos h
    rw [findDollar] at h
    by_cases hc : c = '$'
    · rw [if_pos hc] at h
      have : pos = 0 := (Option.some.inj h).symm
      subst this
      exact ⟨by simp, by simpa using hc, by simp⟩
    · rw [if_neg hc] at h
      cases hrest : findDollar rest with
      | none => rw [hrest] at h; exact Option.noConfusion h
      | some p =>
        rw [hrest] at h
        have hpos : pos = p + 1 := (Option.some.inj h).symm
        subst hpos
        rcases ih p hrest with ⟨h1, h2, h3⟩
        refine ⟨by simpa using h1, by simpa using h2, ?_⟩
        intro hmem
        rcases List.mem_cons.mp (by simpa using hmem) with he | hm
        · exact hc he.symm
        · exact h3 hm

theorem count_drop_le (c : Char) : ∀ (s : List Char) (n : ℕ),
    (s.drop n).count c ≤ s.count c := by
  intro s
  induction s with
  | nil => intro n; simp
  | cons x xs ih =>
    intro n
    cases n with
    | zero => simp
    | succ m =>
      rw [List.drop_succ_cons]
      calc (xs.drop m).count c ≤ xs.count c := ih m
        _ ≤ (x :: xs).count c := by
            rw [List.count_cons]
            omega

/-- `replace_spell_power_char` from `_format_card`:
while a `'$'` is present at `pos`, rewrite the text to
`text[:pos] + "\*" + text[pos+1:pos+2] + "\* " + text[pos+3:]`
(note `"\*"` is the two characters backslash, star, and the character at
`pos+2` is dropped), then search again. -/
def replace_spell_power_char (s : List Char) : List Char :=
  match hpos : findDollar s with
  | none => s
  | some pos =>
    replace_spell_power_char
      (s.take pos ++ ['\\', '*'] ++ (s.drop (pos + 1)).take 1 ++
        ['\\', '*', ' '] ++ s.drop (pos + 3))
termination_by s.count '$'
decreasing_by
  rcases findDollar_spec s pos hpos with ⟨hlt, hat, hnot⟩
  have htd : s = s.take pos ++ s.drop pos := (List.take_append_drop pos s).symm
  have hdropc : s.drop pos = '$' :: s.drop (pos + 1) := by
    rw [List.drop_eq_getElem_cons hlt]
    congr 1
    rw [← List.getD_eq_getElem s ' ' hlt]
    exact hat
  have htake0 : (s.take pos).count '$' = 0 := by
    rw [List.count_eq_zero]
    exact hnot
  have hsplit1 : s.drop (pos + 1) =
      (s.drop (pos + 1)).take 1 ++ (s.drop (pos + 1)).drop 1 := by
    rw [List.take_append_drop]
  have hdd : (s.drop (pos + 1)).drop 1 = s.drop (pos + 2) := by
    rw [List.drop_drop]
  have hcount : s.count '$' =
      ((s.drop (pos + 1)).take 1).count '$' + (s.drop (pos + 2)).count '$' + 1 := by
    conv_lhs => rw [htd]
    rw [List.count_append, htake0, hdropc, List.count_cons]
    conv_lhs => rw [hsplit1]
    rw [List.count_append, hdd]
    simp
  simp only [List.count_append]
  have h3 : (s.drop (pos + 3)).count '$' ≤ (s.drop (pos + 2)).count '$' := by
    have : s.drop (pos + 3) = (s.drop (pos + 2)).drop 1 := by
      rw [List.drop_drop]
    rw [this]
    exact count_drop_le '$' (s.drop (pos + 2)) 1
  have hb : (['\\', '*'] : List Char).count '$' = 0 := by decide
  have hb2 : (['\\', '*', ' '] : List Char).count '$' = 0 := by decide
  omega

/-- Scanner for `text.replace(old, new)` (non-empty `pat`): walk the
text one character at a time; while `skip > 0` the character was already
consumed by an earlier pattern occurrence and is dropped; at `skip = 0`,
a pattern occurrence starting here emits `rep` and marks the matched
characters after the current one as consumed (`pat.length - 1`),
otherwise the character is kept.  This is exactly Python's left-to-right
non-overlapping replacement. -/
def repGo (pat rep : List Char) : List Char → ℕ → List Char
  | [], _ => []
  | _ :: rest, skip + 1 => repGo pat rep rest skip
  | c :: rest, 0 =>
    if pat.isPrefixOf (c :: rest) then rep ++ repGo pat rep rest (pat.length - 1)
    else c :: repGo pat rep rest 0

/-- `replace_html_tag`'s `text.replace(old, new)`: replace every
non-overlapping occurrence, left to right (for an empty pattern the tag
patterns used here are never empty, and the text is returned as is). -/
def replaceSub (pat rep : List Char) (s : List Char) : List Char :=
  if pat.isEmpty then s else repGo pat rep s 0

/-- The characteristic equation of the scanner: skipping `k` characters
and resuming is dropping `k` characters. -/
theorem repGo_skip (pat rep : List Char) : ∀ (s : List Char) (k : ℕ),
    repGo pat rep s k = repGo pat rep (s.drop k) 0 := by
  intro s
  induction s with
  | nil => intro k; cases k <;> rfl
  | cons c rest ih =>
    intro k
    cases k with
    | zero => rfl
    | succ m => rw [List.drop_succ_cons, ← ih m]; rfl

/-- On a pattern occurrence the scanner emits `rep` and continues after
the matched characters — the defining equation of Python's
`str.replace`. -/
theorem replaceSub_matched (pat rep : List Char) (c : Char) (rest : List Char)
    (hne : ¬ pat.isEmpty) (hpre : pat.isPrefixOf (c :: rest)) :
    replaceSub pat rep (c :: rest) =
      rep ++ replaceSub pat rep (List.drop pat.length (c :: rest)) := by
  have hlen : 1 ≤ pat.length := by
    cases pat with
    | nil => exact absurd rfl hne
    | cons p ps => simp
  have hd : List.drop pat.length (c :: rest) = rest.drop (pat.length - 1) := by
    cases hp : pat.length with
    | zero => exact absurd hp (by omega)
    | succ n =>
      rw [List.drop_succ_cons]
      congr 1
  rw [replaceSub, if_neg hne, replaceSub, if_neg hne]
  rw [repGo, if_pos hpre, repGo_skip pat rep rest (pat.length - 1), hd]

/-- `replace_html_tag(text, tag, replace)`: replace the start tag
`<tag>` and then the end tag `</tag>` by `replace`. -/
def replace_html_tag (t tag rep : List Char) : List Char :=
  replaceSub ('<' :: '/' :: (tag ++ ['>'])) rep
    (replaceSub ('<' :: (tag ++ ['>'])) rep t)

/-- `text.replace('\n', ' ')`: a single-character pattern and
replacement, i.e. character-wise substitution. -/
def newline_to_space (s : List Char) : List Char :=
  s.map (fun c => if c = '\n' then ' ' else c)

/-- Python `str.title()`: the first character of each alphabetic run is
uppercased, the following ones lowercased (the flag says whether the
previous character was alphabetic). -/
def pyTitle : Bool → List Char → List Char
  | _, [] => []
  | prev, c :: rest =>
    if c.isAlpha then
      (if prev then c.toLower else c.toUpper) :: pyTitle true rest
    else c :: pyTitle false rest

/-- The full `text` pipeline of `_format_card`: spell-power marker,
`<b>`, `<i>`, newlines. -/
def fmt_text (t : List Char) : List Char :=
  newline_to_space
    (replace_html_tag (replace_html_tag (replace_spell_power_char t) ['b'] ['*', '*'])
      ['i'] ['*'])

/-- The `flavor` pipeline of `_format_card`: `<b>`, `<i>`, newlines —
the spell-power replacement is NOT applied to flavor text. -/
def fmt_flavor (t : List Char) : List Char :=
  newline_to_space (replace_html_tag (replace_html_tag t ['b'] ['*', '*']) ['i'] ['*'])

/-- `if 'text' in card: ...` step of `_format_card`. -/
def text_step (c : Card) : Card :=
  match c.text with
  | none => c
  | some t => { c with text := some (fmt_text t) }

/-- `if 'flavor' in card: ...` step of `_format_card`. -/
def flavor_step (c : Card) : Card :=
  match c.flavor with
  | none => c
  | some f => { c with flavor := some (fmt_flavor f) }

/-- `if card['type'] == MINION: if 'playerClass' not in card and
'collectible' in card: card['playerClass'] = 'Neutral'`. -/
def neutral_step (c : Card) : Card :=
  if c.type = "MINION" then
    if c.playerClass.isNone ∧ c.collectible then
      { c with playerClass := some "Neutral".toList }
    else c
  else c

/-- `if 'playerClass' in card: card['playerClass'].title()`. -/
def title_step (c : Card) : Card :=
  match c.playerClass with
  | none => c
  | some pc => { c with playerClass := some (pyTitle false pc) }

/-- The set display mapping: `CORE → "Basic"`, `EXPERT1 → "Classic"`
(`CardSet.BASIC = "CORE"`, `CardSet.CLASSIC = "EXPERT1"`). -/
def set_step (c : Card) : Card :=
  if c.set = "CORE" then { c with set := "Basic" }
  else if c.set = "EXPERT1" then { c with set := "Classic" }
  else c

/-- `_format_card`, as the composition of its five statement groups. -/
def format_card (c : Card) : Card :=
  set_step (title_step (neutral_step (flavor_step (text_step c))))

/-! ## `_clean_cards_dict` -/

/-- The excluded sets (`CHEAT, CREDITS, HERO_SKINS, MISSIONS, NONE,
TAVERNBRAWL`; `CardSet.TAVERNBRAWL = "TB"`). -/
def unwanted_sets : List String :=
  ["CHEAT", "CREDITS", "HERO_SKINS", "MISSIONS", "NONE", "TB"]

/-- The kept card types. -/
def wanted_types : List String := ["MINION", "SPELL", "WEAPON"]

/-- Python `list.remove(x)`: delete the first element equal to `x`. -/
def removeFirst (x : Card) : List Card → List Card
  | [] => []
  | y :: ys => if y = x then ys else y :: removeFirst x ys

/-- The removal loop of `_clean_cards_dict`: iterate over a (deep) copy
of the list, removing from the live list every record whose `set` is
unwanted, or else whose `type` is not wanted. -/
def clean_loop : List Card → List Card → List Card
  | [], cards => cards
  | c :: copy, cards =>
    clean_loop copy
      (if c.set ∈ unwanted_sets then removeFirst c cards
       else if c.type ∉ wanted_types then removeFirst c cards
       else cards)

/-- `_clean_cards_dict`: remove unwanted records, then format each
remaining card in place. -/
def clean_cards_dict (cards : List Card) : List Card :=
  (clean_loop cards cards).map format_card

/-! ## `_set_cards`: the dataset freshness logic -/

/-- The ambient I/O behaviour a run of `_set_cards` observes.
`localMtime = none` models `os.stat` raising (caught, time treated
as `0`); `remoteMtime = none` models a failed/unparseable `HEAD`
request (caught inside `_get_server_mod_time`, time `0`);
`remoteData = none` models a failed GET (caught inside
`_download_card_json`, which then returns Python `None`);
`localData = none` models `open`/`json.loads` on the local file raising
(NOT caught anywhere). -/
structure FetchEnv where
  localMtime : Option ℚ
  remoteMtime : Option ℚ
  remoteData : Option (List Card)
  localData : Option (List Card)
  deriving DecidableEq

/-- What a run of `_set_cards` did: the returned records (`none` is the
Python value `None`, not an exception), whether a GET was issued
(`fetched`), and what was written to the local file (`some x` means the
file was overwritten with `x`; `x = none` means the literal JSON `null`
was written). -/
structure LoadOutcome where
  records : Option (List Card)
  fetched : Bool
  written : Option (Option (List Card))
  deriving DecidableEq

/-- `_get_server_mod_time`: `0` when the HEAD request fails. -/
def get_server_mod_time (e : FetchEnv) : ℚ := e.remoteMtime.getD 0

/-- The `local_time` computation in `_set_cards`: `0` when `os.stat`
raises. -/
def local_mod_time (e : FetchEnv) : ℚ := e.localMtime.getD 0

/-- `_set_cards`: fetch-and-save when `server_time > local_time`, else
load the local file (whose failure propagates, `Except.error`). -/
def set_cards (e : FetchEnv) : Except Unit LoadOutcome :=
  if get_server_mod_time e > local_mod_time e then
    Except.ok ⟨e.remoteData, true, some e.remoteData⟩
  else
    match e.localData with
    | some cards => Except.ok ⟨some cards, false, none⟩
    | none => Except.error ()

/-- `_clean_cards_dict` applied to the value `_set_cards` returned:
on Python `None` the `for card in cards_copy` iteration raises
`TypeError` (modelled `none`). -/
def clean_cards_opt : Option (List Card) → Option (List Card)
  | none => none
  | some cards => some (clean_cards_dict cards)

/-! ## Further `mapOpt` and sum lemmas -/

theorem mapOpt_congr (f g : α → Option β) :
    ∀ l : List α, (∀ a ∈ l, f a = g a) → mapOpt f l = mapOpt g l := by
  intro l
  induction l with
  | nil => intro _; rfl
  | cons x xs ih =>
    intro h
    rw [mapOpt, mapOpt, h x (List.mem_cons_self x xs),
      ih (fun a ha => h a (List.mem_cons.mpr (Or.inr ha)))]

theorem mapOpt_map (f : α → Option β) (k : β → γ) :
    ∀ l : List α, mapOpt (fun a => (f a).map k) l = (mapOpt f l).map (List.map k) := by
  intro l
  induction l with
  | nil => rfl
  | cons x xs ih =>
    cases hfx : f x with
    | none => simp [mapOpt, hfx, ih]
    | some y =>
      cases hrest : mapOpt f xs with
      | none => simp [mapOpt, hfx, hrest, ih]
      | some ys => simp [mapOpt, hfx, hrest, ih]

theorem foldl_add_shift : ∀ (l : List ℚ) (a : ℚ),
    List.foldl (fun x y => x + y) a l = a + List.foldl (fun x y => x + y) 0 l := by
  intro l
  induction l with
  | nil => intro a; simp
  | cons x xs ih =>
    intro a
    rw [List.foldl_cons, List.foldl_cons, ih (a + x), ih (0 + x)]
    ring

theorem sumQ_cons (x : ℚ) (l : List ℚ) : sumQ (x :: l) = x + sumQ l := by
  rw [sumQ, sumQ, List.foldl_cons, foldl_add_shift]
  ring

theorem sumQ_append : ∀ (a b : List ℚ), sumQ (a ++ b) = sumQ a + sumQ b := by
  intro a
  induction a with
  | nil => intro b; simp [sumQ]
  | cons x xs ih =>
    intro b
    rw [List.cons_append, sumQ_cons, sumQ_cons, ih]
    ring

/-- `sumContribs` is the sum of the individual contributions. -/
theorem sumContribs_eq_sumQ (qlen nlen : ℕ) (parts : List (ℕ × ℕ × ℚ)) :
    sumContribs qlen nlen parts =
      sumQ (parts.map (fun p => contribFormula qlen nlen p.1 p.2.1 p.2.2)) := by
  rw [sumContribs, sumQ, List.foldl_map]

theorem mem_of_head? {l : List α} {x : α} (h : l.head? = some x) : x ∈ l := by
  rcases List.head?_eq_some_iff.mp h with ⟨ys, rfl⟩
  exact List.mem_cons_self x ys

/-! ## The specification-side scoring formula (claim C1) -/

/-- One query token's contribution as the specification words it: `s` is
the token's maximum similarity over the name's tokens (all of them,
duplicates included), the best-matching name token is the first one
attaining `s`, and the contribution is
`tokenCoverage * s * 0.75 + nameCoverage * s * 0.25`. -/
def specTokenContribution (query name sw : List Char) : Option ℚ :=
  match mapOpt (fun cw => (similarity sw cw).map (fun m => (cw, m))) (splitSp name) with
  | none => none
  | some ms =>
    match ms.find? (fun p => decide (∀ q ∈ ms, q.2 ≤ p.2)) with
    | none => none
    | some best =>
      if (remSp name).length = 0 then none
      else if (remSp query).length = 0 then none
      else some (contribFormula (remSp query).length (remSp name).length
        sw.length best.1.length best.2)

/-- Claim C1 as stated: the total score as the sum of the per-token
formula over ALL tokens of the space-split query. -/
def specScoreAllTokens (query name : List Char) : Option ℚ :=
  (mapOpt (specTokenContribution query name) (splitSp query)).map sumQ

/-- The amended total: the same sum, but over the DISTINCT query tokens
(first occurrences), which is what the `search_words` dict iterates. -/
def specScoreDistinct (query name : List Char) : Option ℚ :=
  (mapOpt (specTokenContribution query name) (dedupFirst (splitSp query))).map sumQ

/-- The per-token processing of the source (`tokenPart`: best match by
strict-improvement scan over the DEDUPLICATED card words) computes
exactly the specification's per-token value (first maximum over ALL
name tokens). -/
theorem specTok_eq_tokenPart (query name sw : List Char) :
    specTokenContribution query name sw =
      (tokenPart query name sw).map
        (fun p => contribFormula (remSp query).length (remSp name).length
          p.1 p.2.1 p.2.2) := by
  cases hA : mapOpt (fun cw => (similarity sw cw).map (fun m => (cw, m)))
      (splitSp name) with
  | none =>
    have hD : mapOpt (fun cw => (similarity sw cw).map (fun m => (cw, m)))
        (dedupFirst (splitSp name)) = none := by
      rw [mapOpt_eq_none_iff]
      rcases (mapOpt_eq_none_iff _ _).mp hA with ⟨cw, hcw, hnone⟩
      exact ⟨cw, (mem_dedupFirst _ _).mpr hcw, hnone⟩
    simp only [specTokenContribution, tokenPart, hA, hD, Option.map_none']
  | some ms =>
    cases hD : mapOpt (fun cw => (similarity sw cw).map (fun m => (cw, m)))
        (dedupFirst (splitSp name)) with
    | none =>
      exfalso
      rcases (mapOpt_eq_none_iff _ _).mp hD with ⟨cw, hcw, hnone⟩
      have hcw' : cw ∈ splitSp name := (mem_dedupFirst _ _).mp hcw
      have hS := mapOpt_isSome _ _ ms hA cw hcw'
      rw [hnone] at hS
      simp at hS
    | some msd =>
      have hsome : ∀ cw ∈ splitSp name,
          (fun cw => (similarity sw cw).map (fun m => (cw, m))) cw =
            some (cw, (similarity sw cw).getD 0) := by
        intro cw hcw
        have hS := mapOpt_isSome _ _ ms hA cw hcw
        cases hsim : similarity sw cw with
        | none => rw [hsim] at hS; simp at hS
        | some m => simp [hsim]
      have hms : ms = (splitSp name).map (fun cw => (cw, (similarity sw cw).getD 0)) :=
        mapOpt_eq_map _ _ _ ms hA hsome
      have hmsd : msd =
          (dedupFirst (splitSp name)).map (fun cw => (cw, (similarity sw cw).getD 0)) :=
        mapOpt_eq_map _ _ _ msd hD
          (fun cw hcw => hsome cw ((mem_dedupFirst _ _).mp hcw))
      have hsel : bestMatch msd = ms.find? (fun p => decide (∀ q ∈ ms, q.2 ≤ p.2)) := by
        rw [bestMatch_eq_find?, hmsd, hms]
        rw [List.find?_map, List.find?_map]
        have hext : ∀ cw ∈ dedupFirst (splitSp name),
            ((fun p : List Char × ℚ =>
                decide (∀ q ∈ (dedupFirst (splitSp name)).map
                  (fun cw => (cw, (similarity sw cw).getD 0)), q.2 ≤ p.2)) ∘
              (fun cw => (cw, (similarity sw cw).getD 0))) cw =
            ((fun p : List Char × ℚ =>
                decide (∀ q ∈ (splitSp name).map
                  (fun cw => (cw, (similarity sw cw).getD 0)), q.2 ≤ p.2)) ∘
              (fun cw => (cw, (similarity sw cw).getD 0))) cw := by
          intro cw _
          simp only [Function.comp_apply]
          rw [decide_eq_decide]
          constructor
          · intro h q hq
            rcases List.mem_map.mp hq with ⟨w, hw, rfl⟩
            exact h _ (List.mem_map.mpr ⟨w, (mem_dedupFirst _ _).mpr hw, rfl⟩)
          · intro h q hq
            rcases List.mem_map.mp hq with ⟨w, hw, rfl⟩
            exact h _ (List.mem_map.mpr ⟨w, (mem_dedupFirst _ _).mp hw, rfl⟩)
        rw [find?_ext _ _ _ hext, find?_dedupFirst]
      simp only [specTokenContribution, tokenPart, hA, hD, hsel]
      cases hfind : ms.find? (fun p => decide (∀ q ∈ ms, q.2 ≤ p.2)) with
      | none => simp
      | some best =>
        by_cases h1 : (remSp name).length = 0
        · simp [h1]
        · by_cases h2 : (remSp query).length = 0
          · simp [h1, h2]
          · simp [h1, h2]

/-- AMENDED claim C1: the score the source computes is the
specification's formula summed over the DISTINCT query tokens. -/
theorem score_eq_specScoreDistinct (query name : List Char) :
    score query name = specScoreDistinct query name := by
  rw [score, specScoreDistinct]
  rw [mapOpt_congr (specTokenContribution query name)
    (fun sw => (tokenPart query name sw).map
      (fun p => contribFormula (remSp query).length (remSp name).length
        p.1 p.2.1 p.2.2))
    (dedupFirst (splitSp query))
    (fun sw _ => specTok_eq_tokenPart query name sw)]
  rw [mapOpt_map, Option.map_map]
  cases hparts : mapOpt (tokenPart query name) (dedupFirst (splitSp query)) with
  | none => rfl
  | some parts =>
    simp only [Option.map_some', Function.comp_apply]
    rw [sumContribs_eq_sumQ]

/-! ## `find_card` characterizations -/

theorem find_card_short (cards : List Card) (query : List Char) (mm : ℚ)
    (hq : (lowerStr (strip query)).length < 1) :
    find_card cards query mm = some none := by
  simp only [find_card, find_card_run]
  rw [if_pos hq]

theorem find_card_none_of_none (cards : List Card) (query : List Char) (mm : ℚ)
    (hq : ¬ (lowerStr (strip query)).length < 1)
    (hs : scoredList cards (lowerStr (strip query)) = none) :
    find_card cards query mm = none := by
  simp only [find_card, find_card_run, hs]
  rw [if_neg hq]

theorem find_card_eq_of_scored (cards : List Card) (query : List Char) (mm : ℚ)
    (scored : List (Card × ℚ))
    (hq : ¬ (lowerStr (strip query)).length < 1)
    (hs : scoredList cards (lowerStr (strip query)) = some scored) :
    find_card cards query mm =
      if (scored.filter (fun r => mm ≤ r.2)).isEmpty then some none
      else some ((sortDesc (scored.filter (fun r => mm ≤ r.2))).head?.map Prod.fst) := by
  simp only [find_card, find_card_run, hs]
  rw [if_neg hq]
  by_cases hemp : (scored.filter (fun r => mm ≤ r.2)).isEmpty
  · rw [if_pos hemp, if_pos hemp]
  · rw [if_neg hemp, if_neg hemp]

/-- C2: with every card scored (no exception) and a non-empty stripped
query, `_find_card` returns `None` when nothing reaches `min_match`, and
otherwise returns the first card of maximal score among those reaching
`min_match`, in collection order (`pre`, the eligible cards before the
winner, all score strictly less; everything eligible scores at most the
winner's score). -/
theorem find_card_selects (cards : List Card) (query : List Char) (mm : ℚ)
    (scored : List (Card × ℚ))
    (hq : ¬ (lowerStr (strip query)).length < 1)
    (hs : scoredList cards (lowerStr (strip query)) = some scored) :
    (scored.filter (fun r => mm ≤ r.2) = [] → find_card cards query mm = some none) ∧
    (∀ e es, scored.filter (fun r => mm ≤ r.2) = e :: es →
      ∃ (m : Card × ℚ) (pre post : List (Card × ℚ)),
        find_card cards query mm = some (some m.1) ∧
        scored.filter (fun r => mm ≤ r.2) = pre ++ m :: post ∧
        mm ≤ m.2 ∧
        (∀ p ∈ pre, p.2 < m.2) ∧
        (∀ p ∈ scored.filter (fun r => mm ≤ r.2), p.2 ≤ m.2)) := by
  have hrun := find_card_eq_of_scored cards query mm scored hq hs
  constructor
  · intro hfil
    rw [hrun, hfil]
    rfl
  · intro e es hfil
    have hemp : (scored.filter (fun r => mm ≤ r.2)).isEmpty = false := by
      rw [hfil]; rfl
    rw [hrun, if_neg (by simp [hemp]), sortDesc_head, hfil]
    have hbm : bestMatch (e :: es) = some (List.foldl pick e (e :: es)) := rfl
    rw [hbm]
    rcases foldl_pick_spec (e :: es) e with ⟨heq, hbound⟩ |
      ⟨pre, post, hsplit, _, hpre, hpost⟩
    · rw [heq]
      refine ⟨e, [], es, rfl, rfl, ?_, by simp, hbound⟩
      have he : e ∈ scored.filter (fun r => mm ≤ r.2) := by
        rw [hfil]; exact List.mem_cons_self e es
      exact of_decide_eq_true (List.mem_filter.mp he).2
    · set r := List.foldl pick e (e :: es) with hr
      refine ⟨r, pre, post, rfl, hsplit, ?_, hpre, ?_⟩
      · have hrm : r ∈ scored.filter (fun r => mm ≤ r.2) := by
          rw [hfil, hsplit]
          exact List.mem_append.mpr (Or.inr (List.mem_cons_self r post))
        exact of_decide_eq_true (List.mem_filter.mp hrm).2
      · intro p hp
        rw [hsplit] at hp
        rcases List.mem_append.mp hp with h1 | h2
        · exact le_of_lt (hpre p h1)
        · rcases List.mem_cons.mp h2 with h3 | h4
          · rw [h3]
          · exact hpost p h4

/-- Concrete cards used by the witnesses. -/
def cardA : Card := ⟨"aa".toList, "MINION", "GVG", none, none, none, false⟩

def cardB : Card := ⟨"bb".toList, "SPELL", "GVG", none, none, none, false⟩

/-- Witness for C2 at a concrete collection: `cardA` scores `1`,
`cardB` scores `0`, threshold `1/2`. -/
theorem find_card_selects_witness :
    ∃ (m : Card × ℚ) (pre post : List (Card × ℚ)),
      find_card [cardA, cardB] "aa".toList (1/2) = some (some m.1) ∧
      [(cardA, (1 : ℚ)), (cardB, 0)].filter (fun r => (1/2 : ℚ) ≤ r.2) =
        pre ++ m :: post ∧
      (1/2 : ℚ) ≤ m.2 ∧
      (∀ p ∈ pre, p.2 < m.2) ∧
      (∀ p ∈ [(cardA, (1 : ℚ)), (cardB, 0)].filter (fun r => (1/2 : ℚ) ≤ r.2),
        p.2 ≤ m.2) := by
  have h := (find_card_selects [cardA, cardB] "aa".toList (1/2)
    [(cardA, 1), (cardB, 0)]
    (by with_unfolding_all decide)
    (by with_unfolding_all decide)).2 (cardA, 1) []
    (by with_unfolding_all decide)
  exact h

/-- C10: `_find_card` is read-only — the card collection after a run is
the collection before it, and the run's answer is `find_card`'s. -/
theorem find_card_readonly (cards : List Card) (query : List Char) (mm : ℚ) :
    (find_card_run cards query mm).1 = cards ∧
    (find_card_run cards query mm).2 = find_card cards query mm := by
  refine ⟨?_, rfl⟩
  simp only [find_card_run]
  split
  · rfl
  · split
    · rfl
    · split <;> rfl

/-- Card with two consecutive spaces in its name, for C5
reachability. -/
def cardSpaced : Card := ⟨"x  y".toList, "SPELL", "GVG", none, none, none, false⟩

/-- C5 (code bug evidence): the similarity expression has no guard for
two empty tokens — `similarity "" ""` is the `ZeroDivisionError` branch
(`none`), not `1`; and the error is reachable through `_find_card` with
double-spaced inputs. -/
theorem similarity_empty_empty :
    similarity [] [] = none ∧
    find_card [cardSpaced] "a  b".toList (3/4) = none :=
  ⟨rfl, by with_unfolding_all decide⟩

/-- C6: `calc_levenshtein_distance` computes the classic Levenshtein
edit distance `lev` (unit-cost insertion/deletion/substitution); in
particular it is zero on equal strings, symmetric, and equals the length
on an empty first argument. -/
theorem calc_levenshtein_classic (a b : List Char) :
    calc_levenshtein_distance a b = lev a b ∧
    calc_levenshtein_distance a a = 0 ∧
    calc_levenshtein_distance a b = calc_levenshtein_distance b a ∧
    calc_levenshtein_distance [] b = b.length := by
  refine ⟨calc_eq_lev a b, ?_, ?_, ?_⟩
  · rw [calc_eq_lev, lev_self]
  · rw [calc_eq_lev, calc_eq_lev, lev_symm]
  · rw [calc_eq_lev, lev_nil_left]

/-- Counterexample to C1 as stated: for the query `"ab ab"` (a repeated
token) against the name `"ab"`, the source's score is `5/8` (the
`search_words` dict collapses the duplicate token), while the claimed
sum over ALL split tokens is `5/4`. -/
theorem C1_counterexample :
    score "ab ab".toList "ab".toList = some (5/8 : ℚ) ∧
    specScoreAllTokens "ab ab".toList "ab".toList = some (5/4 : ℚ) ∧
    (5/8 : ℚ) ≠ (5/4 : ℚ) := by
  refine ⟨?_, ?_, ?_⟩ <;> with_unfolding_all decide

/-! ## Claims C3 / C4: the freshness logic -/

/-- C3: `_set_cards` fetches exactly when the remote time is strictly
newer than the local time (each defaulting to `0` when unavailable); on
a fetch it persists what it downloaded; otherwise it issues no fetch,
writes nothing, and returns the locally loaded records (the local read
error propagating otherwise). -/
theorem set_cards_freshness (e : FetchEnv) :
    (local_mod_time e < get_server_mod_time e →
      set_cards e = Except.ok ⟨e.remoteData, true, some e.remoteData⟩) ∧
    (¬ local_mod_time e < get_server_mod_time e →
      (∀ d, e.localData = some d → set_cards e = Except.ok ⟨some d, false, none⟩) ∧
      (e.localData = none → set_cards e = Except.error ())) ∧
    (∀ out, set_cards e = Except.ok out →
      (out.fetched = true ↔ local_mod_time e < get_server_mod_time e)) := by
  refine ⟨?_, ?_, ?_⟩
  · intro h
    unfold set_cards
    rw [if_pos h]
  · intro h
    constructor
    · intro d hd
      unfold set_cards
      rw [if_neg h, hd]
    · intro hd
      unfold set_cards
      rw [if_neg h, hd]
  · intro out hout
    by_cases h : local_mod_time e < get_server_mod_time e
    · unfold set_cards at hout
      rw [if_pos h] at hout
      have hout' : out = ⟨e.remoteData, true, some e.remoteData⟩ :=
        (Except.ok.inj hout).symm
      rw [hout']
      simp [h]
    · unfold set_cards at hout
      rw [if_neg h] at hout
      cases hd : e.localData with
      | some d =>
        rw [hd] at hout
        have hout' : out = ⟨some d, false, none⟩ := (Except.ok.inj hout).symm
        rw [hout']
        simp [h]
      | none =>
        rw [hd] at hout
        exact Except.noConfusion hout

/-- Environment for the C3 witness: local older than remote, both data
sources available. -/
def envC3 : FetchEnv := ⟨some 1, some 2, some [cardA], some [cardB]⟩

theorem set_cards_freshness_witness :
    set_cards envC3 = Except.ok ⟨envC3.remoteData, true, some envC3.remoteData⟩ :=
  (set_cards_freshness envC3).1 (by with_unfolding_all decide)

/-- Environment for C4: remote is newer, but the download fails. -/
def envC4 : FetchEnv := ⟨some 1, some 2, none, some [cardA]⟩

/-- Counterexample to C4 as stated: with the remote newer and the fetch
failing, `_set_cards` does NOT propagate an error — the downloader
catches the exception and returns `None`, and the load completes
normally, overwriting the local file with `null` and returning `None`
records. -/
theorem C4_counterexample :
    local_mod_time envC4 < get_server_mod_time envC4 ∧
    envC4.remoteData = none ∧
    set_cards envC4 = Except.ok ⟨none, true, some none⟩ ∧
    (∀ u, set_cards envC4 ≠ Except.error u) := by
  have h3 : set_cards envC4 = Except.ok ⟨none, true, some none⟩ := by
    with_unfolding_all rfl
  refine ⟨by with_unfolding_all decide, rfl, h3, ?_⟩
  intro u h
  rw [h3] at h
  exact Except.noConfusion h

/-- AMENDED claim C4: when the remote is newer and the fetch fails, the
fetch error is swallowed — the load returns normally with `None`
records after overwriting the local store with `None` (the existing
local copy is NOT substituted), and the subsequent cleaning step fails
on the `None` record set. -/
theorem set_cards_fetch_failure (e : FetchEnv)
    (h1 : local_mod_time e < get_server_mod_time e)
    (h2 : e.remoteData = none) :
    set_cards e = Except.ok ⟨none, true, some none⟩ ∧
    (∀ out, set_cards e = Except.ok out → clean_cards_opt out.records = none) := by
  have hmain : set_cards e = Except.ok ⟨none, true, some none⟩ := by
    unfold set_cards
    rw [if_pos h1, h2]
  refine ⟨hmain, ?_⟩
  intro out hout
  rw [hmain] at hout
  have hout' : out = ⟨none, true, some none⟩ := (Except.ok.inj hout).symm
  rw [hout']
  rfl

theorem set_cards_fetch_failure_witness :
    set_cards envC4 = Except.ok ⟨none, true, some none⟩ ∧
    (∀ out, set_cards envC4 = Except.ok out → clean_cards_opt out.records = none) :=
  set_cards_fetch_failure envC4 (by with_unfolding_all decide) rfl

/-! ## Claim C9: monotonicity of the score in one token's similarity -/

/-- C9: fixing the query-side and name-side coverages of every token
and the other tokens' best-match similarities, the accumulated
`percent_match` is monotonically non-decreasing in one token's
best-match similarity. -/
theorem score_monotone (qlen nlen swlen cwlen : ℕ)
    (pre post : List (ℕ × ℕ × ℚ)) (s t : ℚ) (h : s ≤ t) :
    sumContribs qlen nlen (pre ++ (swlen, cwlen, s) :: post) ≤
      sumContribs qlen nlen (pre ++ (swlen, cwlen, t) :: post) := by
  rw [sumContribs_eq_sumQ, sumContribs_eq_sumQ, List.map_append, List.map_cons,
    List.map_append, List.map_cons, sumQ_append, sumQ_append, sumQ_cons, sumQ_cons]
  have hc : contribFormula qlen nlen swlen cwlen s ≤
      contribFormula qlen nlen swlen cwlen t := by
    unfold contribFormula
    have h1 : (0 : ℚ) ≤ (swlen : ℚ) / (qlen : ℚ) := by positivity
    have h2 : (0 : ℚ) ≤ (cwlen : ℚ) / (nlen : ℚ) := by positivity
    nlinarith [mul_nonneg h1 (sub_nonneg.mpr h), mul_nonneg h2 (sub_nonneg.mpr h)]
  have := add_le_add_left hc (sumQ (pre.map
    (fun p => contribFormula qlen nlen p.1 p.2.1 p.2.2)))
  linarith

theorem score_monotone_witness :
    sumContribs 2 2 ([] ++ (1, 1, (0 : ℚ)) :: []) ≤
      sumContribs 2 2 ([] ++ (1, 1, (1 : ℚ)) :: []) :=
  score_monotone 2 2 1 1 [] [] 0 1 (by norm_num)

/-! ## Field preservation of the `_format_card` steps -/

theorem text_step_type (c : Card) : (text_step c).type = c.type := by
  unfold text_step; cases c.text <;> rfl

theorem text_step_set (c : Card) : (text_step c).set = c.set := by
  unfold text_step; cases c.text <;> rfl

theorem text_step_flavor (c : Card) : (text_step c).flavor = c.flavor := by
  unfold text_step; cases c.text <;> rfl

theorem flavor_step_type (c : Card) : (flavor_step c).type = c.type := by
  unfold flavor_step; cases c.flavor <;> rfl

theorem flavor_step_set (c : Card) : (flavor_step c).set = c.set := by
  unfold flavor_step; cases c.flavor <;> rfl

theorem flavor_step_text (c : Card) : (flavor_step c).text = c.text := by
  unfold flavor_step; cases c.flavor <;> rfl

theorem neutral_step_type (c : Card) : (neutral_step c).type = c.type := by
  unfold neutral_step; split_ifs <;> rfl

theorem neutral_step_set (c : Card) : (neutral_step c).set = c.set := by
  unfold neutral_step; split_ifs <;> rfl

theorem neutral_step_text (c : Card) : (neutral_step c).text = c.text := by
  unfold neutral_step; split_ifs <;> rfl

theorem neutral_step_flavor (c : Card) : (neutral_step c).flavor = c.flavor := by
  unfold neutral_step; split_ifs <;> rfl

theorem title_step_type (c : Card) : (title_step c).type = c.type := by
  unfold title_step; cases c.playerClass <;> rfl

theorem title_step_set (c : Card) : (title_step c).set = c.set := by
  unfold title_step; cases c.playerClass <;> rfl

theorem title_step_text (c : Card) : (title_step c).text = c.text := by
  unfold title_step; cases c.playerClass <;> rfl

theorem title_step_flavor (c : Card) : (title_step c).flavor = c.flavor := by
  unfold title_step; cases c.playerClass <;> rfl

theorem set_step_type (c : Card) : (set_step c).type = c.type := by
  unfold set_step; split_ifs <;> rfl

theorem set_step_text (c : Card) : (set_step c).text = c.text := by
  unfold set_step; split_ifs <;> rfl

theorem set_step_flavor (c : Card) : (set_step c).flavor = c.flavor := by
  unfold set_step; split_ifs <;> rfl

theorem set_step_set (c : Card) : (set_step c).set =
    (if c.set = "CORE" then "Basic" else if c.set = "EXPERT1" then "Classic" else c.set) := by
  unfold set_step; split_ifs <;> rfl

theorem format_card_type (c : Card) : (format_card c).type = c.type := by
  unfold format_card
  rw [set_step_type, title_step_type, neutral_step_type, flavor_step_type,
    text_step_type]

theorem format_card_set (c : Card) : (format_card c).set =
    (if c.set = "CORE" then "Basic" else if c.set = "EXPERT1" then "Classic" else c.set) := by
  unfold format_card
  rw [set_step_set, title_step_set, neutral_step_set, flavor_step_set, text_step_set]

/-! ## Claim C7: the cleaning invariant -/

/-- The records `_clean_cards_dict` keeps: set not excluded AND type
wanted (the loop removes on an unwanted set, or else on an unwanted
type). -/
def keepB (c : Card) : Bool := decide (c.set ∉ unwanted_sets ∧ c.type ∈ wanted_types)

theorem removeFirst_append (c : Card) : ∀ (pre rest : List Card),
    (∀ a ∈ pre, a ≠ c) → removeFirst c (pre ++ c :: rest) = pre ++ rest := by
  intro pre
  induction pre with
  | nil =>
    intro rest _
    simp [removeFirst]
  | cons a pre' ih =>
    intro rest h
    rw [List.cons_append]
    simp only [removeFirst]
    rw [if_neg (h a (List.mem_cons_self a pre')),
      ih rest (fun b hb => h b (List.mem_cons.mpr (Or.inr hb))), List.cons_append]

/-- The removal loop, with already-processed survivors `pre` in front,
is a filter: value-determined removal deletes exactly the non-kept
records, in order. -/
theorem clean_loop_filter : ∀ (copy pre : List Card),
    (∀ a ∈ pre, keepB a = true) →
    clean_loop copy (pre ++ copy) = pre ++ copy.filter keepB := by
  intro copy
  induction copy with
  | nil =>
    intro pre _
    simp [clean_loop]
  | cons c copy' ih =>
    intro pre h
    have hne : keepB c = false → ∀ a ∈ pre, a ≠ c := by
      intro hkeep a ha heq
      have hk := h a ha
      rw [heq, hkeep] at hk
      exact Bool.noConfusion hk
    by_cases hset : c.set ∈ unwanted_sets
    · have hkeep : keepB c = false := by simp [keepB, hset]
      simp only [clean_loop]
      rw [if_pos hset, removeFirst_append c pre copy' (hne hkeep), ih pre h,
        List.filter_cons]
      simp [hkeep]
    · by_cases htype : c.type ∈ wanted_types
      · have hkeep : keepB c = true := by simp [keepB, hset, htype]
        have harg : ∀ a ∈ pre ++ [c], keepB a = true := by
          intro a ha
          rcases List.mem_append.mp ha with h1 | h2
          · exact h a h1
          · rw [List.mem_singleton.mp h2]; exact hkeep
        simp only [clean_loop]
        rw [if_neg hset, if_neg (fun hn => hn htype)]
        have hpre' : pre ++ c :: copy' = (pre ++ [c]) ++ copy' := by simp
        rw [hpre', ih (pre ++ [c]) harg, List.filter_cons]
        simp [hkeep]
      · have hkeep : keepB c = false := by simp [keepB, htype]
        simp only [clean_loop]
        rw [if_neg hset, if_pos htype, removeFirst_append c pre copy' (hne hkeep),
          ih pre h, List.filter_cons]
        simp [hkeep]

theorem clean_loop_all (raw : List Card) : clean_loop raw raw = raw.filter keepB := by
  have h := clean_loop_filter raw [] (by intro a ha; cases ha)
  simpa using h

theorem mem_clean_keep (raw : List Card) (c : Card) (hc : c ∈ clean_cards_dict raw) :
    c.type ∈ wanted_types ∧ c.set ∉ unwanted_sets := by
  rw [clean_cards_dict, clean_loop_all] at hc
  rcases List.mem_map.mp hc with ⟨c0, hc0, rfl⟩
  have hk := (List.mem_filter.mp hc0).2
  simp only [keepB, decide_eq_true_eq] at hk
  constructor
  · rw [format_card_type]; exact hk.2
  · rw [format_card_set]
    split_ifs with hB hC
    · decide
    · decide
    · exact hk.1

theorem find_card_mem (cards : List Card) (q : List Char) (mm : ℚ) (c : Card)
    (h : find_card cards q mm = some (some c)) : c ∈ cards := by
  by_cases hq : (lowerStr (strip q)).length < 1
  · rw [find_card_short cards q mm hq] at h
    exact Option.noConfusion (Option.some.inj h)
  · cases hsl : scoredList cards (lowerStr (strip q)) with
    | none =>
      rw [find_card_none_of_none cards q mm hq hsl] at h
      exact Option.noConfusion h
    | some scored =>
      rw [find_card_eq_of_scored cards q mm scored hq hsl] at h
      by_cases hemp : (scored.filter (fun r => mm ≤ r.2)).isEmpty = true
      · rw [if_pos hemp] at h
        exact Option.noConfusion (Option.some.inj h)
      · rw [if_neg hemp] at h
        have h2 := Option.some.inj h
        rcases Option.map_eq_some'.mp h2 with ⟨m, hm, hmc⟩
        have hmem3 := (List.mem_filter.mp (mem_sortDesc _ m (mem_of_head? hm))).1
        rcases mapOpt_mem _ cards scored m hsl hmem3 with ⟨a, ha, hfa⟩
        rcases Option.map_eq_some'.mp hfa with ⟨sv, _, hpair⟩
        rw [← hmc, ← hpair]
        exact ha

/-- C7: every card surviving `_clean_cards_dict` has a wanted type and a
non-excluded set, and consequently a `_find_card` lookup over the
cleaned collection never returns an excluded-set or excluded-type
record, whatever the query and threshold. -/
theorem clean_cards_invariant (raw : List Card) :
    (∀ c ∈ clean_cards_dict raw, c.type ∈ wanted_types ∧ c.set ∉ unwanted_sets) ∧
    (∀ (q : List Char) (mm : ℚ) (c : Card),
      find_card (clean_cards_dict raw) q mm = some (some c) →
      c.type ∈ wanted_types ∧ c.set ∉ unwanted_sets) := by
  constructor
  · intro c hc
    exact mem_clean_keep raw c hc
  · intro q mm c h
    exact mem_clean_keep raw c (find_card_mem _ q mm c h)

theorem clean_cards_invariant_witness :
    (format_card cardA).type ∈ wanted_types ∧
    (format_card cardA).set ∉ unwanted_sets :=
  (clean_cards_invariant [cardA]).2 "aa".toList (3/4) (format_card cardA)
    (by with_unfolding_all decide)

/-! ## Claim C8: text normalization -/

theorem findDollar_none : ∀ s : List Char, findDollar s = none → '$' ∉ s := by
  intro s
  induction s with
  | nil => intro _ hmem; cases hmem
  | cons c rest ih =>
    intro h hmem
    rw [findDollar] at h
    by_cases hc : c = '$'
    · rw [if_pos hc] at h
      exact Option.noConfusion h
    · rw [if_neg hc] at h
      have hrest : findDollar rest = none := by
        cases hr : findDollar rest with
        | none => rfl
        | some p => rw [hr] at h; simp at h
      rcases List.mem_cons.mp hmem with h1 | h2
      · exact hc h1.symm
      · exact ih hrest h2

theorem spc_no_dollar (t : List Char) : '$' ∉ replace_spell_power_char t := by
  induction t using replace_spell_power_char.induct with
  | case1 s hpos =>
    rw [replace_spell_power_char.eq_def, hpos]
    exact findDollar_none s hpos
  | case2 s pos hpos ih =>
    rw [replace_spell_power_char.eq_def, hpos]
    exact ih

theorem newline_to_space_no_nl (t : List Char) : '\n' ∉ newline_to_space t := by
  intro h
  rcases List.mem_map.mp h with ⟨c, _, hc⟩
  by_cases hcn : c = '\n'
  · rw [if_pos hcn] at hc
    exact absurd hc (by decide)
  · rw [if_neg hcn] at hc
    exact hcn hc

/-- Substring occurrence check. -/
def hasSub (pat : List Char) : List Char → Bool
  | [] => pat.isEmpty
  | c :: rest => pat.isPrefixOf (c :: rest) || hasSub pat rest

/-- The card used in the C8 example: the claimed text, and a flavor
containing a `'$'` marker. -/
def cardC8 : Card :=
  ⟨"x".toList, "SPELL", "GVG", some "Deal $1 damage.<b>Bold</b>".toList,
    some "$1".toList, none, false⟩

/-- Counterexample to C8 as stated: the `'$'` spell-power replacement is
NOT applied to the `flavor` field — a `'$'` in flavor text survives
`_format_card` unchanged (only tags and newlines are rewritten there). -/
theorem C8_counterexample :
    cardC8.flavor = some ['$', '1'] ∧
    (format_card cardC8).flavor = some ['$', '1'] ∧
    '$' ∈ ['$', '1'] := by
  refine ⟨rfl, ?_, by decide⟩
  with_unfolding_all decide

/-- AMENDED claim C8: `_format_card` rewrites the `text` field with the
spell-power, `<b>`, `<i>` and newline replacements, and the `flavor`
field with the tag and newline replacements only; the spell-power pass
eliminates every `'$'` and the newline pass every `'\n'`; and on the
example text the result has no `'$'`, no `<b>`/`</b>` substring and no
newline. -/
theorem format_card_normalization :
    (∀ (c : Card) (t : List Char), c.text = some t →
      (format_card c).text = some (fmt_text t)) ∧
    (∀ (c : Card) (f : List Char), c.flavor = some f →
      (format_card c).flavor = some (fmt_flavor f)) ∧
    (∀ t : List Char, '$' ∉ replace_spell_power_char t) ∧
    (∀ t : List Char, '\n' ∉ newline_to_space t) ∧
    (format_card cardC8).text = some (fmt_text "Deal $1 damage.<b>Bold</b>".toList) ∧
    ('$' ∉ fmt_text "Deal $1 damage.<b>Bold</b>".toList ∧
      hasSub "<b>".toList (fmt_text "Deal $1 damage.<b>Bold</b>".toList) = false ∧
      hasSub "</b>".toList (fmt_text "Deal $1 damage.<b>Bold</b>".toList) = false ∧
      '\n' ∉ fmt_text "Deal $1 damage.<b>Bold</b>".toList) := by
  refine ⟨?_, ?_, spc_no_dollar, newline_to_space_no_nl, ?_, ?_, ?_, ?_, ?_⟩
  · intro c t ht
    unfold format_card
    rw [set_step_text, title_step_text, neutral_step_text, flavor_step_text]
    unfold text_step
    rw [ht]
  · intro c f hf
    unfold format_card
    rw [set_step_flavor, title_step_flavor, neutral_step_flavor]
    unfold flavor_step
    rw [text_step_flavor, hf]
  all_goals with_unfolding_all decide

theorem format_card_normalization_witness :
    (format_card cardC8).text =
      some (fmt_text "Deal $1 damage.<b>Bold</b>".toList) ∧
    (format_card cardC8).flavor = some (fmt_flavor "$1".toList) :=
  ⟨format_card_normalization.1 cardC8 _ rfl,
    format_card_normalization.2.1 cardC8 _ rfl⟩

end HS
